import Mathlib

/-
  Verification development for the MyRag hybrid-retrieval core.

  The TypeScript sources are embedded shallowly:
  strings become `List Char`, machine numbers become `ℝ` (scores) or `ℕ`
  (lengths, indices), fallible code returns `Except`/`Option`, and the
  mutable document/session maps become explicit association lists threaded
  through each operation.  JavaScript regular expressions are modelled at
  the fragment the code uses: the whitespace class on the ASCII whitespace
  characters, the word class on ASCII alphanumerics plus underscore, and a
  global match of a metacharacter-free pattern as non-overlapping
  left-to-right substring occurrences.
-/

/-- A JavaScript string, modelled as its list of characters. -/
abbrev Str := List Char

/-- The JS whitespace class on ASCII characters (space, tab, LF, VT, FF, CR). -/
def isWsChar (c : Char) : Bool :=
  c == ' ' || c == '\t' || c == '\n' || c == '\r' || c == '\x0b' || c == '\x0c'

/-- The JS word-character class on ASCII: letters, digits and underscore. -/
def isWordChar (c : Char) : Bool :=
  c.isAlphanum || c == '_'

/-- The characters that are special in a JS regular-expression pattern.
`calculateKeywordScore` builds `new RegExp(term, 'gi')` from each matched
query term without escaping, so a term is matched literally exactly when
it contains none of these characters; a term containing them is
interpreted as a pattern (for example `c.t` also matches `cut`), and an
ill-formed pattern such as `(((` makes the constructor throw. -/
def isRegexMeta (c : Char) : Bool :=
  c == '\\' || c == '^' || c == '$' || c == '.' || c == '|' || c == '?' || c == '*' ||
  c == '+' || c == '(' || c == ')' || c == '[' || c == ']' || c == '\x7b' || c == '\x7d'

/-- Drop leading whitespace. -/
def dropWs (s : Str) : Str := s.dropWhile isWsChar

/-- JS String.prototype.trim: drop whitespace from both ends. -/
def trimStr (s : Str) : Str := dropWs (List.reverse (dropWs (List.reverse s)))

/-- Replace every maximal run of whitespace by a single space, as in
the JS `replace(/\s+/g, ' ')` used by the chunker: the last character of a
run is rewritten to a space and the earlier ones are dropped. -/
def collapseWs : Str → Str
  | [] => []
  | [c] => [if isWsChar c then ' ' else c]
  | c₁ :: c₂ :: rest =>
    if isWsChar c₁ && isWsChar c₂ then collapseWs (c₂ :: rest)
    else (if isWsChar c₁ then ' ' else c₁) :: collapseWs (c₂ :: rest)

/-- The chunker's normalisation: collapse whitespace runs, then trim. -/
def normalizeText (s : Str) : Str := trimStr (collapseWs s)

/-- Split a string at every single space character, keeping empty fields. -/
def splitOnSpace : Str → List Str
  | [] => [[]]
  | c :: rest =>
    match splitOnSpace rest with
    | [] => []
    | t :: ts => if c == ' ' then [] :: t :: ts else (c :: t) :: ts

/-- JS `split(/\s+/)`: maximal whitespace runs are the separators, with an
empty leading/trailing field when the string starts/ends with whitespace.
After `collapseWs` every separator is a single space, so splitting the
collapsed string at spaces realises exactly that semantics. -/
def splitWs (s : Str) : List Str := splitOnSpace (collapseWs s)

/-- Whether the pattern occurs in `s` starting at index `i`. -/
def matchesAt (s pat : Str) (i : ℕ) : Bool :=
  (s.drop i).take pat.length == pat

/-- JS String.prototype.lastIndexOf: index of the last occurrence of the
pattern, `-1` when there is none. -/
def lastIndexOfStr (s pat : Str) : Int :=
  match ((List.range s.length).filter (fun i => matchesAt s pat i)).getLast? with
  | some i => (i : Int)
  | none => -1

/-- JS `substring(a, b)` for `a ≤ b`: the characters of indices `[a, min b len)`. -/
def substringStr (s : Str) (a b : ℕ) : Str := (s.drop a).take (b - a)

/-- Fuel-driven scan counting the non-overlapping occurrences of `pat` in
the remaining string, advancing past each match, as a global regex match
of a literal pattern does.  The fuel only bounds the recursion; it never
runs out when it starts at the length of the string. -/
def countOccsF (pat : Str) : ℕ → Str → ℕ
  | 0, _ => 0
  | _ + 1, [] => 0
  | fuel + 1, c :: rest =>
    if pat ≠ [] && pat.isPrefixOf (c :: rest) then
      1 + countOccsF pat fuel ((c :: rest).drop pat.length)
    else countOccsF pat fuel rest

/-- Number of non-overlapping occurrences of `pat` in `s`.  This models
`textLower.match(new RegExp(term, 'gi'))` only for terms free of regex
metacharacters (`isRegexMeta`), where the pattern is a literal string;
for a term containing metacharacters the source performs regex matching
instead (or throws on an ill-formed pattern), which this development does
not model — theorems about `calculateKeywordScore` on arbitrary queries
therefore carry a metacharacter-freeness hypothesis on the matched
terms. -/
def countOccs (s pat : Str) : ℕ := countOccsF pat s.length s

/-- JS String.prototype.includes. -/
def containsSub (s pat : Str) : Bool :=
  (List.range (s.length + 1)).any (fun i => matchesAt s pat i)

/-- Lowercase a string character by character (ASCII `toLowerCase`). -/
def lowerStr (s : Str) : Str := s.map Char.toLower

/-- `BM25.tokenize`: lowercase, replace every non-word non-whitespace
character by a space, split on whitespace runs, keep tokens longer than 2. -/
def bm25Tokenize (text : Str) : List Str :=
  ((splitWs ((lowerStr text).map
      (fun c => if !(isWordChar c) && !(isWsChar c) then ' ' else c))).filter
    (fun tok => decide (2 < tok.length)))

/-! ## Chunker (`chunkText` in textChunker.ts) -/

/-- One iteration's end index: start at `start + maxChunkSize`; when that
falls short of the end of the text, look in the trailing 200-character
window for the last sentence terminator and cut just after it, provided
its index in the window is positive; the final chunk extends to the end. -/
def chunkEnd (s : Str) (start maxChunkSize : ℕ) : ℕ :=
  let e := start + maxChunkSize
  if e < s.length then
    let searchStart := max start (e - 200)
    let searchText := substringStr s searchStart e
    let lastPeriod := lastIndexOfStr searchText ['.', ' ']
    let lastExclamation := lastIndexOfStr searchText ['!', ' ']
    let lastQuestion := lastIndexOfStr searchText ['?', ' ']
    let lastSentenceEnd := max lastPeriod (max lastExclamation lastQuestion)
    if 0 < lastSentenceEnd then searchStart + lastSentenceEnd.toNat + 2 else e
  else s.length

/-- The chunking loop, with explicit fuel standing for the remaining
iteration budget: `none` means the budget ran out before the loop
finished (the source loop has no such budget and would still be running). -/
def chunkLoopFuel : ℕ → Str → ℕ → ℕ → ℕ → Option (List Str)
  | 0, s, start, _, _ => if start < s.length then none else some []
  | fuel + 1, s, start, maxChunkSize, overlapSize =>
    if start < s.length then
      let e := chunkEnd s start maxChunkSize
      let chunk := trimStr (substringStr s start e)
      let nextStart := e - overlapSize
      let start' := if nextStart ≤ start then e else nextStart
      match chunkLoopFuel fuel s start' maxChunkSize overlapSize with
      | none => none
      | some l => some (if 0 < chunk.length then chunk :: l else l)
    else some []

/-- `chunkText` with explicit options.  The loop is given fuel equal to the
length of the normalised text, which theorem `chunkLoopFuel_isSome` shows
is always enough once `maxChunkSize` is positive. -/
def chunkTextWith (maxChunkSize overlapSize : ℕ) (text : Str) : Option (List Str) :=
  if (trimStr text).length = 0 then some []
  else
    let normalizedText := normalizeText text
    if normalizedText.length ≤ maxChunkSize then some [normalizedText]
    else chunkLoopFuel normalizedText.length normalizedText 0 maxChunkSize overlapSize

/-- `chunkText` at its default options (maxChunkSize 1000, overlapSize 200). -/
def chunkText (text : Str) : List Str := (chunkTextWith 1000 200 text).getD []

/-! ## Data model (documentStore.ts) -/

/-- A chunk record as stored in the document store. -/
structure DocumentChunk where
  id : Str
  documentId : Str
  documentTitle : Str
  content : Str
  embedding : List ℝ
  chunkIndex : ℕ

/-- A document record; `uploadedAt` is a timestamp. -/
structure Document where
  id : Str
  title : Str
  content : Str
  fileType : Str
  uploadedAt : ℕ
  chunks : List DocumentChunk

/-- A per-query search result. -/
structure SearchResult where
  chunk : DocumentChunk
  score : ℝ
  vectorScore : ℝ
  keywordScore : ℝ
  explanation : Str

/-- The document store's map, as an insertion-ordered association list
with the JS `Map` operations below. -/
structure Catalog where
  docs : List (Str × Document)

/-- `Map.get`. -/
def mapGet (m : List (Str × Document)) (k : Str) : Option Document :=
  (m.find? (fun p => p.1 == k)).map (fun p => p.2)

/-- `Map.set`: overwrite in place when the key exists, else append. -/
def mapSet (m : List (Str × Document)) (k : Str) (v : Document) : List (Str × Document) :=
  if (m.find? (fun p => p.1 == k)).isSome then
    m.map (fun p => if p.1 == k then (k, v) else p)
  else m ++ [(k, v)]

/-- `Map.delete`'s effect on the entries: remove the key. -/
def mapDel (m : List (Str × Document)) (k : Str) : List (Str × Document) :=
  m.filter (fun p => !(p.1 == k))

/-- `DocumentStore.getAllChunks`: concatenate the chunk lists of the
documents in map order. -/
def getAllChunks (st : Catalog) : List DocumentChunk :=
  st.docs.foldl (fun acc p => acc ++ p.2.chunks) []

/-- The snapshot handed to the persistence collaborator by `persist()`. -/
def catalogValues (m : List (Str × Document)) : List Document := m.map (fun p => p.2)

/-- `DocumentStore.add`: set by id, then persist the full snapshot.  The
second component records the payloads of the `saveDocuments` calls made. -/
def storeAdd (st : Catalog) (d : Document) : Catalog × List (List Document) :=
  let docs' := mapSet st.docs d.id d
  (⟨docs'⟩, [catalogValues docs'])

/-- `DocumentStore.delete`: `Map.delete` returns whether the key existed,
and only then is the snapshot persisted. -/
def storeDelete (st : Catalog) (id : Str) : Bool × Catalog × List (List Document) :=
  let existed := (mapGet st.docs id).isSome
  if existed then (true, ⟨mapDel st.docs id⟩, [catalogValues (mapDel st.docs id)])
  else (false, st, [])

/-! ## Vector scorer (embeddings.ts) -/

noncomputable section

/-- Sum of pointwise products accumulated over the common indices. -/
def dotProduct (a b : List ℝ) : ℝ := ((a.zip b).map (fun p => p.1 * p.2)).sum

/-- Sum of squares. -/
def normSq (a : List ℝ) : ℝ := (a.map (fun x => x * x)).sum

/-- `cosineSimilarity`: throws on a length mismatch, otherwise
dot product over the product of the Euclidean norms. -/
def cosineSimilarity (vecA vecB : List ℝ) : Except Str ℝ :=
  if vecA.length ≠ vecB.length then
    .error (("Vectors must have the same length").toList)
  else
    .ok (dotProduct vecA vecB / (Real.sqrt (normSq vecA) * Real.sqrt (normSq vecB)))

/-! ## BM25 (bm25.ts) -/

/-- Term-frequency saturation parameter. -/
def bm25K1 : ℝ := 1.5

/-- Length-normalisation parameter. -/
def bm25B : ℝ := 0.75

/-- `BM25.idf` for a term with document frequency `df` in a corpus of `N`
chunks. -/
def bm25IDF (N df : ℕ) : ℝ :=
  Real.log (((N : ℝ) - (df : ℝ) + 0.5) / ((df : ℝ) + 0.5) + 1)

/-- `BM25.score`: iterate over the query tokens; a token absent from the
document contributes nothing, a present one contributes
`idf · tf(k1+1) / (tf + k1(1 - b + b·docLen/avgDocLen))` with `tf` its
raw count among the document's tokens. -/
def bm25Score (N : ℕ) (df : Str → ℕ) (avgDocLength : ℝ)
    (docTokens : List Str) (docLength : ℝ) : List Str → ℝ
  | [] => 0
  | queryTerm :: rest =>
    (let termFreq := docTokens.count queryTerm
     if termFreq = 0 then 0
     else
       let idfScore := bm25IDF N (df queryTerm)
       let lengthNorm := docLength / avgDocLength
       let numerator := (termFreq : ℝ) * (bm25K1 + 1)
       let denominator := (termFreq : ℝ) + bm25K1 * (1 - bm25B + bm25B * lengthNorm)
       idfScore * (numerator / denominator))
    + bm25Score N df avgDocLength docTokens docLength rest

/-! ## Keyword score and explanation (documentStore.ts) -/

/-- The query tokenisation hybrid keyword scoring actually performs:
lowercase and split on whitespace runs, with no punctuation stripping and
no short-token dropping. -/
def codeQueryTerms (query : Str) : List Str := splitWs (lowerStr query)

/-- One iteration of `calculateKeywordScore`'s loop over the query terms,
on the accumulator (score so far, matched-term count so far): terms
shorter than 3 characters are skipped; a term occurring in the text adds
`ln(1 + termFreq)` and counts as matched. -/
def kwStep (textLower : Str) (acc : ℝ × ℕ) (term : Str) : ℝ × ℕ :=
  if term.length < 3 then acc
  else
    let termFreq := countOccs textLower term
    if 0 < termFreq then (acc.1 + Real.log (1 + (termFreq : ℝ)), acc.2 + 1)
    else acc

/-- `DocumentStore.calculateKeywordScore`. -/
def calculateKeywordScore (query text : Str) : ℝ :=
  let queryTerms := codeQueryTerms query
  let textLower := lowerStr text
  let acc := queryTerms.foldl (kwStep textLower) (0, 0)
  let coverage : ℝ :=
    if 0 < queryTerms.length then (acc.2 : ℝ) / (queryTerms.length : ℝ) else 0
  min 1 ((acc.1 / max 1 (queryTerms.length : ℝ)) * 0.5 + coverage * 0.5)

/-- The keyword-score formula exactly as the specification words it (for
comparison against `calculateKeywordScore`): tokenise the query with the
BM25 tokenizer, accumulate `ln(1 + occurrences)` over its tokens (all of
length at least 3 by construction), and combine the normalised
accumulator with the fraction of query tokens matched. -/
def specKeywordScore (query text : Str) : ℝ :=
  let toks := bm25Tokenize query
  let textLower := lowerStr text
  let accumulated : ℝ :=
    ((toks.map (fun tok => Real.log (1 + (countOccs textLower tok : ℝ))))).sum
  let matched := ((toks.filter (fun tok => decide (0 < countOccs textLower tok)))).length
  let fraction : ℝ := if 0 < toks.length then (matched : ℝ) / (toks.length : ℝ) else 0
  min 1 ((accumulated / max 1 (toks.length : ℝ)) * 0.5 + fraction * 0.5)

/-- Closed form of `calculateKeywordScore`'s accumulated score: the sum of
`ln(1 + occurrences)` over the query terms of length at least 3 (terms
with no occurrence contribute `ln 1 = 0`, as in the loop's skip). -/
def keywordAcc (textLower : Str) (terms : List Str) : ℝ :=
  (((terms.filter (fun tm => decide (3 ≤ tm.length))).map
    (fun tm => Real.log (1 + (countOccs textLower tm : ℝ))))).sum

/-- Closed form of `calculateKeywordScore`'s matched-term counter. -/
def keywordMatched (textLower : Str) (terms : List Str) : ℕ :=
  ((terms.filter
    (fun tm => decide (3 ≤ tm.length) && decide (0 < countOccs textLower tm)))).length

/-- Join with a separator. -/
def joinSep (sep : Str) : List Str → Str
  | [] => []
  | [x] => x
  | x :: xs => x ++ sep ++ joinSep sep xs

/-- `DocumentStore.generateExplanation`. -/
def generateExplanation (vectorScore keywordScore : ℝ) (query content : Str) : Str :=
  let semanticReasons : List Str :=
    if 0.8 < vectorScore then [("Very high semantic match").toList]
    else if 0.6 < vectorScore then [("Good semantic relevance").toList]
    else if 0.4 < vectorScore then [("Moderate semantic relevance").toList]
    else []
  let keywordReasons : List Str :=
    if 0.5 < keywordScore then
      let queryTerms := (codeQueryTerms query).filter (fun t => decide (3 ≤ t.length))
      let matchedTerms := queryTerms.filter (fun term => containsSub (lowerStr content) term)
      if 0 < matchedTerms.length then
        [("Contains: \"").toList ++ joinSep (("\", \"").toList) (matchedTerms.take 2) ++
          [Char.ofNat 34]]
      else []
    else []
  let reasons := semanticReasons ++ keywordReasons
  if 0 < reasons.length then joinSep (("; ").toList) reasons
  else ("Related content").toList

/-! ## Hybrid search (documentStore.ts) -/

/-- Insert into a list already sorted by descending `score`. -/
def insertByScoreDesc (x : SearchResult) : List SearchResult → List SearchResult
  | [] => [x]
  | y :: ys => if y.score ≤ x.score then x :: y :: ys else y :: insertByScoreDesc x ys

/-- The JS `sort((a, b) => b.score - a.score)`: some permutation of the
results sorted by descending score; modelled as an insertion sort. -/
def sortByScoreDesc : List SearchResult → List SearchResult
  | [] => []
  | x :: xs => insertByScoreDesc x (sortByScoreDesc xs)

/-- The per-chunk result record built inside `hybridSearch`'s loop. -/
def hybridResult (query : Str) (queryEmbedding : List ℝ) (chunk : DocumentChunk) :
    Except Str SearchResult := do
  let vectorScore ← cosineSimilarity queryEmbedding chunk.embedding
  let keywordScore := calculateKeywordScore query chunk.content
  let combinedScore := 0.6 * vectorScore + 0.4 * keywordScore
  let explanation := generateExplanation vectorScore keywordScore query chunk.content
  pure ⟨chunk, combinedScore, vectorScore, keywordScore, explanation⟩

/-- `DocumentStore.hybridSearch`: empty corpus short-circuits to `[]`;
otherwise score every chunk (a thrown dimension mismatch propagates),
sort by combined score descending and keep the first `topK`. -/
def hybridSearch (query : Str) (queryEmbedding : List ℝ) (topK : ℕ) (st : Catalog) :
    Except Str (List SearchResult) := do
  let allChunks := getAllChunks st
  if allChunks.length = 0 then pure []
  else
    let results ← allChunks.mapM (hybridResult query queryEmbedding)
    pure ((sortByScoreDesc results).take topK)

/-! ## Upload route (app/api/upload/route.ts) -/

/-- The route's response, reduced to what the claims inspect. -/
inductive UploadResponse where
  | error (status : ℕ) (message : Str)
  | success (documentId : Str) (chunkCount : ℕ)

/-- `POST /api/upload`, parameterised by the external collaborators:
`embedBatch` stands for `generateEmbeddings`, `newId` for the generated
document id, `now` for `new Date()`, and the parsed file is given by its
name, size, declared type and extracted text.  Returns the response, the
catalog afterwards, and the persistence calls made. -/
def uploadPost (embedBatch : List Str → List (List ℝ)) (newId : Str) (now : ℕ)
    (fileName fileTypeLabel : Str) (fileSize : ℕ) (content : Str) (st : Catalog) :
    UploadResponse × Catalog × List (List Document) :=
  if 10 * 1024 * 1024 < fileSize then
    (.error 400 (("File too large. Maximum size is 10MB.").toList), st, [])
  else if (trimStr content).length = 0 then
    (.error 400 (("File appears to be empty or could not be parsed").toList), st, [])
  else
    let textChunks := chunkText content
    if 1000 < textChunks.length then
      (.error 400 (("File too large: generated too many chunks (max 1000).").toList), st, [])
    else
      let embeddings := embedBatch textChunks
      let chunks : List DocumentChunk :=
        (textChunks.zip (List.range textChunks.length)).map
          (fun p => ⟨newId ++ ("_chunk_").toList ++ (Nat.repr p.2).toList, newId,
            fileName, p.1, embeddings.getD p.2 [], p.2⟩)
      let doc : Document := ⟨newId, fileName, content, fileTypeLabel, now, chunks⟩
      let (st', saves) := storeAdd st doc
      (.success newId chunks.length, st', saves)

end

/-! ## Chat route session registry (app/api/chat/route.ts) -/

/-- The module-level `activeRequests` map (request id → abort controller,
the controller named by a handle) together with the set of controllers
whose `abort()` has been called. -/
structure ChatState where
  active : List (Str × ℕ)
  tripped : List ℕ

/-- `activeRequests.get`. -/
def sessionGet (m : List (Str × ℕ)) (k : Str) : Option ℕ :=
  (m.find? (fun p => p.1 == k)).map (fun p => p.2)

/-- `activeRequests.delete`'s effect on the entries. -/
def sessionDel (m : List (Str × ℕ)) (k : Str) : List (Str × ℕ) :=
  m.filter (fun p => !(p.1 == k))

/-- `DELETE /api/chat`: when the request id has a live controller, abort
it, drop it from the registry and answer 200; otherwise answer 404 with
no state change. -/
def deleteChat (requestId : Str) (st : ChatState) : ℕ × ChatState :=
  match sessionGet st.active requestId with
  | some controller =>
    (200, ⟨sessionDel st.active requestId, controller :: st.tripped⟩)
  | none => (404, st)

/-! ## Whitespace lemmas -/

theorem dropWhile_head_false {p : Char → Bool} :
    ∀ {l c t}, List.dropWhile p l = c :: t → p c = false := by
  intro l
  induction l with
  | nil => intro c t h; simp at h
  | cons x xs ih =>
    intro c t h
    rw [List.dropWhile_cons] at h
    by_cases hx : p x = true
    · exact ih (by simpa [hx] using h)
    · obtain ⟨rfl, rfl⟩ : x = c ∧ xs = t := by
        simpa [hx] using h
      simpa using hx

theorem dropWs_all_ws {l : Str} (h : dropWs l = []) : ∀ c ∈ l, isWsChar c = true := by
  intro c hc
  rcases (List.mem_append.mp (by
      rw [List.takeWhile_append_dropWhile isWsChar l]; exact hc :
      c ∈ List.takeWhile isWsChar l ++ List.dropWhile isWsChar l)) with h1 | h1
  · exact List.mem_takeWhile_imp h1
  · rw [show List.dropWhile isWsChar l = [] from h] at h1; simp at h1

theorem dropWs_of_all_ws {l : Str} (h : ∀ c ∈ l, isWsChar c = true) : dropWs l = [] :=
  List.dropWhile_eq_nil_iff.mpr h

theorem trimStr_all_ws {l : Str} (h : trimStr l = []) : ∀ c ∈ l, isWsChar c = true := by
  intro c hc
  have h2 : ∀ x ∈ List.reverse (dropWs (List.reverse l)), isWsChar x = true :=
    dropWs_all_ws h
  have h3 : ∀ x ∈ dropWs (List.reverse l), isWsChar x = true := by
    intro x hx; exact h2 x (List.mem_reverse.mpr hx)
  have h4 : ∀ x ∈ List.reverse l, isWsChar x = true := by
    intro x hx
    rcases List.mem_append.mp (by
        rw [List.takeWhile_append_dropWhile isWsChar (List.reverse l)]
        exact hx :
        x ∈ List.takeWhile isWsChar (List.reverse l) ++ List.dropWhile isWsChar (List.reverse l))
      with h5 | h5
    · exact List.mem_takeWhile_imp h5
    · exact h3 x h5
  exact h4 c (List.mem_reverse.mpr hc)

theorem trimStr_of_all_ws {l : Str} (h : ∀ c ∈ l, isWsChar c = true) : trimStr l = [] := by
  unfold trimStr
  rw [dropWs_of_all_ws (fun c hc => h c (List.mem_reverse.mp hc))]
  simp [dropWs]

theorem collapseWs_all_ws : ∀ s : Str,
    (∀ c ∈ s, isWsChar c = true) → ∀ c ∈ collapseWs s, isWsChar c = true
  | [], _ => by simp [collapseWs]
  | [c], h => by
    have := h c (by simp)
    simp only [collapseWs, this, if_true]
    intro x hx
    have : x = ' ' := by simpa using hx
    rw [this]; decide
  | c₁ :: c₂ :: rest, h => by
    have h1 : isWsChar c₁ = true := h c₁ (by simp)
    have h2 : isWsChar c₂ = true := h c₂ (by simp)
    have ih := collapseWs_all_ws (c₂ :: rest) (fun c hc => h c (List.mem_cons_of_mem _ hc))
    simp only [collapseWs, h1, h2]
    simpa using ih

theorem collapseWs_no_ws : ∀ s : Str,
    (∀ c ∈ s, isWsChar c = false) → collapseWs s = s
  | [], _ => rfl
  | [c], h => by
    have := h c (by simp)
    simp [collapseWs, this]
  | c₁ :: c₂ :: rest, h => by
    have h1 : isWsChar c₁ = false := h c₁ (by simp)
    have ih := collapseWs_no_ws (c₂ :: rest) (fun c hc => h c (List.mem_cons_of_mem _ hc))
    simp only [collapseWs, h1]
    simp [ih]

theorem dropWs_no_ws {l : Str} (h : ∀ c ∈ l, isWsChar c = false) : dropWs l = l := by
  cases l with
  | nil => rfl
  | cons c t =>
    have := h c (by simp)
    simp [dropWs, List.dropWhile_cons, this]

theorem trimStr_no_ws {l : Str} (h : ∀ c ∈ l, isWsChar c = false) : trimStr l = l := by
  unfold trimStr
  rw [dropWs_no_ws (fun c hc => h c (List.mem_reverse.mp hc)), List.reverse_reverse,
    dropWs_no_ws h]

theorem trimStr_head_not_ws {l : Str} {c : Char} {t : Str}
    (h : trimStr l = c :: t) : isWsChar c = false :=
  dropWhile_head_false h

theorem normalizeText_ne_nil_of_trim {text : Str} (h : normalizeText text ≠ []) :
    (trimStr text).length ≠ 0 := by
  intro hlen
  have htrim : trimStr text = [] := List.length_eq_zero.mp hlen
  exact h (trimStr_of_all_ws (collapseWs_all_ws text (trimStr_all_ws htrim)))

theorem trimStr_cons_not_ws {c : Char} {t : Str} (h : isWsChar c = false) :
    trimStr (c :: t) ≠ [] := by
  intro hnil
  have := trimStr_all_ws hnil c (by simp)
  rw [h] at this
  exact Bool.false_ne_true this

/-! ## Chunker lemmas -/

theorem matchesAt_length {s pat : Str} {i : ℕ} (h : matchesAt s pat i = true) :
    pat.length ≤ s.length - i := by
  unfold matchesAt at h
  have heq : (s.drop i).take pat.length = pat := by
    exact beq_iff_eq.mp h
  have hlen : ((s.drop i).take pat.length).length = pat.length := by rw [heq]
  rw [List.length_take, List.length_drop] at hlen
  omega

theorem lastIndexOfStr_cases (s pat : Str) :
    lastIndexOfStr s pat = -1 ∨
    ∃ i : ℕ, lastIndexOfStr s pat = (i : Int) ∧ i < s.length ∧ matchesAt s pat i = true := by
  unfold lastIndexOfStr
  cases hlast : ((List.range s.length).filter (fun i => matchesAt s pat i)).getLast? with
  | none => exact Or.inl rfl
  | some i =>
    right
    refine ⟨i, rfl, ?_⟩
    have hmem : i ∈ (List.range s.length).filter (fun i => matchesAt s pat i) := by
      obtain ⟨ys, hys⟩ := List.getLast?_eq_some_iff.mp hlast
      rw [hys]; simp
    have := List.mem_filter.mp hmem
    exact ⟨List.mem_range.mp this.1, this.2⟩

theorem chunkEnd_bounds (s : Str) (start maxChunkSize : ℕ)
    (hmax : 0 < maxChunkSize) (hstart : start < s.length) :
    start < chunkEnd s start maxChunkSize ∧ chunkEnd s start maxChunkSize ≤ s.length := by
  unfold chunkEnd
  by_cases he : start + maxChunkSize < s.length
  · simp only [he, if_true]
    set searchStart := max start (start + maxChunkSize - 200) with hss
    set searchText := substringStr s searchStart (start + maxChunkSize) with hst
    have hssle : searchStart ≤ start + maxChunkSize := by omega
    have hstlen : searchText.length ≤ start + maxChunkSize - searchStart := by
      rw [hst]; unfold substringStr
      rw [List.length_take]; omega
    set lastSentenceEnd := max (lastIndexOfStr searchText ['.', ' '])
      (max (lastIndexOfStr searchText ['!', ' ']) (lastIndexOfStr searchText ['?', ' '])) with hlse
    by_cases hpos : 0 < lastSentenceEnd
    · simp only [hpos, if_true]
      have hone : ∃ i : ℕ, lastSentenceEnd = (i : Int) ∧ 0 < i ∧ i + 2 ≤ searchText.length := by
        have h3 : lastSentenceEnd = lastIndexOfStr searchText ['.', ' '] ∨
            lastSentenceEnd = lastIndexOfStr searchText ['!', ' '] ∨
            lastSentenceEnd = lastIndexOfStr searchText ['?', ' '] := by
          rw [hlse]; rcases max_cases (lastIndexOfStr searchText ['.', ' '])
            (max (lastIndexOfStr searchText ['!', ' ']) (lastIndexOfStr searchText ['?', ' '])) with
            ⟨h, _⟩ | ⟨h, _⟩
          · exact Or.inl h
          · rcases max_cases (lastIndexOfStr searchText ['!', ' '])
              (lastIndexOfStr searchText ['?', ' ']) with ⟨h2, _⟩ | ⟨h2, _⟩
            · exact Or.inr (Or.inl (h.trans h2))
            · exact Or.inr (Or.inr (h.trans h2))
        rcases h3 with h | h | h <;>
        · rcases lastIndexOfStr_cases searchText _ with hc | ⟨i, hi, hilt, hm⟩
          · rw [h, hc] at hpos; omega
          · refine ⟨i, by rw [h, hi], by rw [h, hi] at hpos; exact_mod_cast hpos, ?_⟩
            have h6 := matchesAt_length hm
            simp only [List.length_cons, List.length_nil] at h6
            omega
      obtain ⟨i, hi, hipos, hilen⟩ := hone
      rw [hi]
      simp only [Int.toNat_ofNat]
      constructor
      · omega
      · omega
    · simp only [hpos, if_false]
      omega
  · simp only [he, if_false]
    omega

/-- C4's core fact: with positive `maxChunkSize` the loop finishes within
`s.length - start` iterations, because every iteration strictly advances
the start offset (falling back to `end` whenever `end - overlapSize`
would not advance it). -/
theorem chunkLoopFuel_isSome :
    ∀ (fuel : ℕ) (s : Str) (start maxChunkSize overlapSize : ℕ),
      0 < maxChunkSize → s.length - start ≤ fuel →
      (chunkLoopFuel fuel s start maxChunkSize overlapSize).isSome = true := by
  intro fuel
  induction fuel with
  | zero =>
    intro s start maxCS ov hmax hfuel
    have : ¬ start < s.length := by omega
    simp [chunkLoopFuel, this]
  | succ fuel ih =>
    intro s start maxCS ov hmax hfuel
    by_cases hlt : start < s.length
    · have hb := chunkEnd_bounds s start maxCS hmax hlt
      simp only [chunkLoopFuel, hlt, if_true]
      set e := chunkEnd s start maxCS with he
      set start' := if e - ov ≤ start then e else e - ov with hs'
      have hadv : start < start' ∧ start' ≤ s.length := by
        rw [hs']
        by_cases hc : e - ov ≤ start
        · simp only [hc, if_true]; omega
        · simp only [hc, if_false]; omega
      have hrec := ih s start' maxCS ov hmax (by omega)
      cases hrecv : chunkLoopFuel fuel s start' maxCS ov with
      | none => rw [hrecv] at hrec; simp at hrec
      | some l => simp
    · simp [chunkLoopFuel, hlt]

/-- Helper for C5: when the normalised text is longer than `maxChunkSize`,
the loop's first iteration emits a non-empty chunk, so the final list is
non-empty. -/
theorem chunkLoop_first_chunk {text : Str} {c : Char} {t : Str}
    (hn : normalizeText text = c :: t) (hlong : 1000 < (normalizeText text).length) :
    ∃ l, chunkLoopFuel (normalizeText text).length (normalizeText text) 0 1000 200 =
      some l ∧ l ≠ [] := by
  set n := normalizeText text with hdefn
  have hlt : (0 : ℕ) < n.length := by omega
  obtain ⟨f, hf⟩ : ∃ f, n.length = f + 1 := ⟨n.length - 1, by omega⟩
  have hb := chunkEnd_bounds n 0 1000 (by norm_num) hlt
  set e := chunkEnd n 0 1000 with hdefe
  have hchunk : trimStr (substringStr n 0 e) ≠ [] := by
    have hsub : substringStr n 0 e = c :: t.take (e - 1) := by
      unfold substringStr
      rw [List.drop_zero, Nat.sub_zero, hn, List.take_cons hb.1]
    rw [hsub]
    exact trimStr_cons_not_ws (trimStr_head_not_ws
      (show trimStr (collapseWs text) = c :: t from hn))
  have hstart' : ∀ start' : ℕ, start' = (if e - 200 ≤ 0 then e else e - 200) →
      0 < start' ∧ start' ≤ n.length := by
    intro start' hs'
    by_cases hc : e - 200 ≤ 0
    · rw [hs', if_pos hc]; exact ⟨hb.1, hb.2⟩
    · rw [hs', if_neg hc]; omega
  obtain ⟨h1, h2⟩ := hstart' _ rfl
  have hrec := chunkLoopFuel_isSome f n (if e - 200 ≤ 0 then e else e - 200) 1000 200
    (by norm_num) (by omega)
  obtain ⟨l, hl⟩ := Option.isSome_iff_exists.mp hrec
  refine ⟨trimStr (substringStr n 0 e) :: l, ?_, by simp⟩
  rw [hf]
  simp only [chunkLoopFuel]
  rw [if_pos (by omega : 0 < n.length)]
  simp only [← hdefe, hl]
  rw [if_pos (by
    have := List.length_pos.mpr hchunk
    omega)]

/-- C3: for every text whose whitespace-normalised form is non-empty and
no longer than `maxChunkSize`, `chunkText` returns exactly one chunk and
it is the normalised text. -/
theorem chunkText_single_chunk (maxChunkSize overlapSize : ℕ) (text : Str)
    (h1 : normalizeText text ≠ []) (h2 : (normalizeText text).length ≤ maxChunkSize) :
    chunkTextWith maxChunkSize overlapSize text = some [normalizeText text] := by
  unfold chunkTextWith
  rw [if_neg (normalizeText_ne_nil_of_trim h1)]
  simp only [h2, if_true]

/-- Witness for C3 at a concrete input. -/
theorem chunkText_single_chunk_witness :
    chunkTextWith 10 2 (("hi there").toList) = some [normalizeText (("hi there").toList)] :=
  chunkText_single_chunk 10 2 (("hi there").toList) (by decide) (by decide)

/-- C4: `chunkText` terminates for every input text once `maxChunkSize` is
positive (for any `overlapSize`): the loop's fuel — one unit per
iteration, `normalizedText.length` units in all — never runs out, because
each iteration strictly advances the start offset (`chunkEnd` moves past
`start`, and when `end - overlapSize` would not advance, the code jumps
to `end` instead, see `chunkLoopFuel_isSome`). -/
theorem chunkText_terminates (maxChunkSize overlapSize : ℕ) (text : Str)
    (hmax : 0 < maxChunkSize) :
    (chunkTextWith maxChunkSize overlapSize text).isSome = true := by
  unfold chunkTextWith
  by_cases hg : (trimStr text).length = 0
  · simp [hg]
  · rw [if_neg hg]
    by_cases hle : (normalizeText text).length ≤ maxChunkSize
    · simp [hle]
    · simp only [hle, if_false]
      exact chunkLoopFuel_isSome _ _ _ _ _ hmax (by omega)

/-- Witness for C4 at a concrete input. -/
theorem chunkText_terminates_witness :
    (chunkTextWith 5 2 (("hello world, how are you").toList)).isSome = true :=
  chunkText_terminates 5 2 (("hello world, how are you").toList) (by norm_num)

/-- Counterexample to C5 as stated: the single-space string is a
non-empty input on which `chunkText` returns the empty sequence. -/
theorem chunkText_whitespace_counterexample :
    (' ' :: [] : Str) ≠ [] ∧ chunkText (' ' :: []) = [] := by
  constructor
  · decide
  · decide

/-- C5 (amended): for every input whose trimmed form is non-empty —
whitespace-only inputs are mapped to the empty sequence by the guard —
`chunkText` returns a non-empty sequence of chunks. -/
theorem chunkText_ne_nil_of_trim_ne_nil (text : Str) (h : trimStr text ≠ []) :
    chunkText text ≠ [] := by
  unfold chunkText chunkTextWith
  have hg : ¬ (trimStr text).length = 0 := fun hl => h (List.length_eq_zero.mp hl)
  rw [if_neg hg]
  by_cases hle : (normalizeText text).length ≤ 1000
  · simp [hle]
  · simp only [hle, if_false]
    have hpos : 0 < (normalizeText text).length := by omega
    obtain ⟨c, t, hct⟩ : ∃ c t, normalizeText text = c :: t := by
      cases hn : normalizeText text with
      | nil => rw [hn] at hpos; simp at hpos
      | cons c t => exact ⟨c, t, rfl⟩
    obtain ⟨l, hl, hlne⟩ := chunkLoop_first_chunk hct (by omega)
    rw [hl]
    simpa using hlne

/-- Witness for the amended C5 at a concrete input. -/
theorem chunkText_ne_nil_witness : chunkText (("hi").toList) ≠ [] :=
  chunkText_ne_nil_of_trim_ne_nil (("hi").toList) (by decide)

/-! ## C7: cosineSimilarity error behaviour -/

/-- C7: `cosineSimilarity` fails with the dimension-mismatch error exactly
when the two vectors have different lengths, and on equal-length vectors
it returns a value and never an error. -/
theorem cosineSimilarity_error_iff (vecA vecB : List ℝ) :
    (vecA.length ≠ vecB.length →
      cosineSimilarity vecA vecB = .error (("Vectors must have the same length").toList)) ∧
    (vecA.length = vecB.length → ∃ v : ℝ, cosineSimilarity vecA vecB = .ok v) := by
  constructor
  · intro h
    unfold cosineSimilarity
    rw [if_pos h]
  · intro h
    refine ⟨dotProduct vecA vecB / (Real.sqrt (normSq vecA) * Real.sqrt (normSq vecB)), ?_⟩
    unfold cosineSimilarity
    rw [if_neg (by omega)]

/-- Witness for C7 at concrete vectors of lengths 1 and 2, and of equal
length 1. -/
theorem cosineSimilarity_error_iff_witness :
    cosineSimilarity [(1 : ℝ)] [(1 : ℝ), 2] =
      .error (("Vectors must have the same length").toList) ∧
    ∃ v : ℝ, cosineSimilarity [(1 : ℝ)] [(2 : ℝ)] = .ok v :=
  ⟨(cosineSimilarity_error_iff [(1 : ℝ)] [(1 : ℝ), 2]).1 (by simp),
   (cosineSimilarity_error_iff [(1 : ℝ)] [(2 : ℝ)]).2 (by simp)⟩

/-! ## C9: the cancellation endpoint -/

theorem sessionGet_sessionDel (m : List (Str × ℕ)) (k : Str) :
    sessionGet (sessionDel m k) k = none := by
  unfold sessionGet sessionDel
  rw [show (List.find? (fun p => p.1 == k) (m.filter (fun p => !(p.1 == k)))) = none from ?_]
  · rfl
  · rw [List.find?_eq_none]
    intro p hp
    have := (List.mem_filter.mp hp).2
    simpa using this

/-- C9: cancelling an id with no active session answers 404 and leaves
the registry (and the set of tripped controllers) unchanged; cancelling
an id with a live session trips that session's controller, removes the
session from the active set immediately, answers 200, and a second
cancel of the same id then answers 404 without further change. -/
theorem deleteChat_spec (st : ChatState) (requestId : Str) :
    (sessionGet st.active requestId = none → deleteChat requestId st = (404, st)) ∧
    (∀ controller, sessionGet st.active requestId = some controller →
      (deleteChat requestId st).1 = 200 ∧
      (deleteChat requestId st).2.active = sessionDel st.active requestId ∧
      (deleteChat requestId st).2.tripped = controller :: st.tripped ∧
      sessionGet (deleteChat requestId st).2.active requestId = none ∧
      deleteChat requestId (deleteChat requestId st).2 =
        (404, (deleteChat requestId st).2)) := by
  constructor
  · intro h
    unfold deleteChat
    rw [h]
  · intro controller h
    have hd : deleteChat requestId st =
        (200, ⟨sessionDel st.active requestId, controller :: st.tripped⟩) := by
      unfold deleteChat
      rw [h]
    rw [hd]
    refine ⟨rfl, rfl, rfl, sessionGet_sessionDel _ _, ?_⟩
    unfold deleteChat
    rw [show sessionGet (ChatState.mk (sessionDel st.active requestId)
      (controller :: st.tripped)).active requestId = none from sessionGet_sessionDel _ _]

/-- Witness for C9 on a concrete registry holding one session. -/
theorem deleteChat_spec_witness :
    deleteChat (("absent").toList) (ChatState.mk [((("r1").toList), 7)] []) =
      (404, ChatState.mk [((("r1").toList), 7)] []) ∧
    (deleteChat (("r1").toList) (ChatState.mk [((("r1").toList), 7)] [])).1 = 200 ∧
    (deleteChat (("r1").toList) (ChatState.mk [((("r1").toList), 7)] [])).2.tripped = [7] :=
  ⟨(deleteChat_spec (ChatState.mk [((("r1").toList), 7)] []) (("absent").toList)).1 (by decide),
   ((deleteChat_spec (ChatState.mk [((("r1").toList), 7)] []) (("r1").toList)).2 7 (by decide)).1,
   by
    have := ((deleteChat_spec (ChatState.mk [((("r1").toList), 7)] [])
      (("r1").toList)).2 7 (by decide)).2.2.1
    rw [this]⟩

/-! ## C10: DocumentStore.delete on an absent id -/

/-- C10: deleting an id that is not in the document map returns `false`,
makes no persistence call, and leaves the map exactly as it was. -/
theorem storeDelete_absent (st : Catalog) (id : Str)
    (h : mapGet st.docs id = none) :
    storeDelete st id = (false, st, []) := by
  unfold storeDelete
  rw [h]
  rfl

/-- Witness for C10 on a concrete store. -/
theorem storeDelete_absent_witness :
    storeDelete (Catalog.mk []) (("missing").toList) = (false, Catalog.mk [], []) :=
  storeDelete_absent (Catalog.mk []) (("missing").toList) rfl

/-! ## C6: BM25 monotonicity in term frequency -/

theorem bm25IDF_nonneg {N df : ℕ} (h : df ≤ N) : 0 ≤ bm25IDF N df := by
  unfold bm25IDF
  apply Real.log_nonneg
  have h1 : (0 : ℝ) ≤ ((N : ℝ) - (df : ℝ) + 0.5) := by
    have : (df : ℝ) ≤ (N : ℝ) := by exact_mod_cast h
    linarith
  have h2 : (0 : ℝ) < ((df : ℝ) + 0.5) := by positivity
  nlinarith [div_nonneg h1 h2.le]

theorem bm25_term_mono (idfScore C : ℝ) (hidf : 0 ≤ idfScore) (hC : 0 < C)
    (tf tf' : ℕ) (h : tf ≤ tf') :
    (if tf = 0 then (0 : ℝ) else idfScore * (((tf : ℝ) * (bm25K1 + 1)) / ((tf : ℝ) + C))) ≤
    (if tf' = 0 then (0 : ℝ) else idfScore * (((tf' : ℝ) * (bm25K1 + 1)) / ((tf' : ℝ) + C))) := by
  by_cases h' : tf' = 0
  · have : tf = 0 := by omega
    rw [this, h']
  · rw [if_neg h']
    have htf'pos : (0 : ℝ) < (tf' : ℝ) := by
      have : 0 < tf' := Nat.pos_of_ne_zero h'
      exact_mod_cast this
    by_cases h0 : tf = 0
    · rw [if_pos h0]
      apply mul_nonneg hidf
      apply div_nonneg
      · unfold bm25K1; positivity
      · linarith
    · rw [if_neg h0]
      apply mul_le_mul_of_nonneg_left ?_ hidf
      have htfpos : (0 : ℝ) < (tf : ℝ) := by
        have : 0 < tf := Nat.pos_of_ne_zero h0
        exact_mod_cast this
      rw [div_le_div_iff₀ (by linarith) (by linarith)]
      have hle : (tf : ℝ) ≤ (tf' : ℝ) := by exact_mod_cast h
      have hmul : (tf : ℝ) * C ≤ (tf' : ℝ) * C :=
        mul_le_mul_of_nonneg_right hle hC.le
      unfold bm25K1
      nlinarith [hmul]

theorem bm25_lengthNorm_pos {avgDocLength docLength : ℝ}
    (havg : 0 < avgDocLength) (hdoc : 0 ≤ docLength) :
    0 < bm25K1 * (1 - bm25B + bm25B * (docLength / avgDocLength)) := by
  have hnorm : 0 ≤ docLength / avgDocLength := div_nonneg hdoc havg.le
  unfold bm25K1 bm25B
  nlinarith [hnorm]

/-- C6: the BM25 per-chunk score is monotone in the raw term frequency of
any query token: replacing the document's token multiset by one whose
count of `t` is at least as large and whose counts elsewhere are the
same — the token count `docLength`, the corpus size `N`, the document
frequencies `df` and the average document length all held constant —
never decreases the score. -/
theorem bm25Score_tf_monotone (N : ℕ) (df : Str → ℕ) (avgDocLength docLength : ℝ)
    (t : Str) (docTokens docTokens' : List Str) (queryTokens : List Str)
    (hother : ∀ u, u ≠ t → docTokens'.count u = docTokens.count u)
    (ht : docTokens.count t ≤ docTokens'.count t)
    (hdf : df t ≤ N) (havg : 0 < avgDocLength) (hdoc : 0 ≤ docLength) :
    bm25Score N df avgDocLength docTokens docLength queryTokens ≤
    bm25Score N df avgDocLength docTokens' docLength queryTokens := by
  induction queryTokens with
  | nil => simp [bm25Score]
  | cons q rest ih =>
    simp only [bm25Score]
    apply add_le_add ?_ ih
    by_cases hq : q = t
    · subst hq
      exact bm25_term_mono _ _ (bm25IDF_nonneg hdf) (bm25_lengthNorm_pos havg hdoc)
        _ _ ht
    · rw [hother q hq]

/-- Witness for C6: adding an occurrence of the query token to an empty
document does not decrease its score. -/
theorem bm25Score_tf_monotone_witness :
    bm25Score 1 (fun _ => 1) 1 [] 1 [("cat").toList] ≤
    bm25Score 1 (fun _ => 1) 1 [("cat").toList] 1 [("cat").toList] :=
  bm25Score_tf_monotone 1 (fun _ => 1) 1 1 (("cat").toList) [] [("cat").toList]
    [("cat").toList]
    (fun u hu => by
      simp only [List.count_cons, List.count_nil]
      rw [if_neg (fun he => hu ((beq_iff_eq.mp he).symm))])
    (by simp)
    (by norm_num) (by norm_num) (by norm_num)

/-! ## C1: hybridSearch ordering, size and score decomposition -/

theorem except_bind_ok {ε α β : Type} {x : Except ε α} {f : α → Except ε β} {b : β}
    (h : (x >>= f) = .ok b) : ∃ a, x = .ok a ∧ f a = .ok b := by
  cases x with
  | error e => simp [Bind.bind, Except.bind] at h
  | ok a => exact ⟨a, rfl, by simpa [Bind.bind, Except.bind] using h⟩

theorem mapM_ok_mem {ε α β : Type} (f : α → Except ε β) :
    ∀ (l : List α) (res : List β), l.mapM f = .ok res →
      ∀ r ∈ res, ∃ c ∈ l, f c = .ok r := by
  intro l
  induction l with
  | nil =>
    intro res h r hr
    rw [List.mapM_nil] at h
    have : res = ([] : List β) := by
      simpa [pure, Except.pure] using h.symm
    rw [this] at hr
    simp at hr
  | cons c cs ih =>
    intro res h r hr
    rw [List.mapM_cons] at h
    obtain ⟨b, hb, h2⟩ := except_bind_ok h
    obtain ⟨bs, hbs, h3⟩ := except_bind_ok h2
    have hres : res = b :: bs := by
      simpa [pure, Except.pure] using h3.symm
    rw [hres] at hr
    rcases List.mem_cons.mp hr with rfl | hr'
    · exact ⟨c, by simp, hb⟩
    · obtain ⟨c', hc', hf⟩ := ih bs hbs r hr'
      exact ⟨c', by simp [hc'], hf⟩

theorem mem_insertByScoreDesc {x a : SearchResult} :
    ∀ {l : List SearchResult}, a ∈ insertByScoreDesc x l → a = x ∨ a ∈ l := by
  intro l
  induction l with
  | nil => intro h; simpa [insertByScoreDesc] using h
  | cons y ys ih =>
    intro h
    unfold insertByScoreDesc at h
    by_cases hle : y.score ≤ x.score
    · rw [if_pos hle] at h
      rcases List.mem_cons.mp h with rfl | h' <;> simp_all
    · rw [if_neg hle] at h
      rcases List.mem_cons.mp h with rfl | h'
      · simp
      · rcases ih h' with rfl | h''
        · simp
        · simp [h'']

theorem pairwise_insertByScoreDesc {x : SearchResult} :
    ∀ {l : List SearchResult},
      List.Pairwise (fun a b => b.score ≤ a.score) l →
      List.Pairwise (fun a b => b.score ≤ a.score) (insertByScoreDesc x l) := by
  intro l
  induction l with
  | nil => intro _; simp [insertByScoreDesc]
  | cons y ys ih =>
    intro hp
    obtain ⟨hy, hys⟩ := List.pairwise_cons.mp hp
    unfold insertByScoreDesc
    by_cases hle : y.score ≤ x.score
    · rw [if_pos hle]
      refine List.pairwise_cons.mpr ⟨?_, hp⟩
      intro b hb
      rcases List.mem_cons.mp hb with rfl | hb'
      · exact hle
      · exact (hy b hb').trans hle
    · rw [if_neg hle]
      refine List.pairwise_cons.mpr ⟨?_, ih hys⟩
      intro b hb
      rcases mem_insertByScoreDesc hb with rfl | hb'
      · exact le_of_not_le hle
      · exact hy b hb'

theorem mem_sortByScoreDesc {a : SearchResult} :
    ∀ {l : List SearchResult}, a ∈ sortByScoreDesc l → a ∈ l := by
  intro l
  induction l with
  | nil => intro h; simp [sortByScoreDesc] at h
  | cons x xs ih =>
    intro h
    unfold sortByScoreDesc at h
    rcases mem_insertByScoreDesc h with rfl | h'
    · simp
    · simp [ih h']

theorem pairwise_sortByScoreDesc :
    ∀ (l : List SearchResult),
      List.Pairwise (fun a b => b.score ≤ a.score) (sortByScoreDesc l) := by
  intro l
  induction l with
  | nil => simp [sortByScoreDesc]
  | cons x xs ih => exact pairwise_insertByScoreDesc ih

theorem hybridResult_ok {query : Str} {queryEmbedding : List ℝ} {chunk : DocumentChunk}
    {r : SearchResult} (h : hybridResult query queryEmbedding chunk = .ok r) :
    cosineSimilarity queryEmbedding chunk.embedding = .ok r.vectorScore ∧
    r.keywordScore = calculateKeywordScore query chunk.content ∧
    r.score = 0.6 * r.vectorScore + 0.4 * r.keywordScore ∧
    r.chunk = chunk := by
  unfold hybridResult at h
  obtain ⟨v, hv, h2⟩ := except_bind_ok h
  have hr : r = ⟨chunk, 0.6 * v + 0.4 * calculateKeywordScore query chunk.content, v,
      calculateKeywordScore query chunk.content,
      generateExplanation v (calculateKeywordScore query chunk.content) query
        chunk.content⟩ := by
    simpa [pure, Except.pure] using h2.symm
  rw [hr]
  exact ⟨hv, rfl, rfl, rfl⟩

/-- C1: whenever `hybridSearch` returns (it throws only on an embedding
dimension mismatch), the returned list is sorted by combined score in
descending order, has at most `topK` elements, and every result's
combined score is exactly `0.6 · vectorScore + 0.4 · keywordScore`, the
two component scores being the cosine similarity against the chunk's
embedding and the keyword score of its content. -/
theorem hybridSearch_ranked (query : Str) (queryEmbedding : List ℝ) (topK : ℕ)
    (st : Catalog) (res : List SearchResult)
    (h : hybridSearch query queryEmbedding topK st = .ok res) :
    List.Pairwise (fun a b => b.score ≤ a.score) res ∧
    res.length ≤ topK ∧
    ∀ r ∈ res, r.score = 0.6 * r.vectorScore + 0.4 * r.keywordScore ∧
      ∃ chunk ∈ getAllChunks st,
        cosineSimilarity queryEmbedding chunk.embedding = .ok r.vectorScore ∧
        r.keywordScore = calculateKeywordScore query chunk.content := by
  unfold hybridSearch at h
  by_cases hempty : (getAllChunks st).length = 0
  · rw [if_pos hempty] at h
    have : res = [] := by simpa [pure, Except.pure] using h.symm
    subst this
    exact ⟨List.Pairwise.nil, by simp, by simp⟩
  · rw [if_neg hempty] at h
    obtain ⟨results, hres, h2⟩ := except_bind_ok h
    have htake : res = (sortByScoreDesc results).take topK := by
      simpa [pure, Except.pure] using h2.symm
    subst htake
    refine ⟨?_, List.length_take_le _ _, ?_⟩
    · exact List.Pairwise.sublist (List.take_sublist _ _) (pairwise_sortByScoreDesc results)
    · intro r hr
      have hrs : r ∈ sortByScoreDesc results := (List.take_sublist _ _).subset hr
      have hrr : r ∈ results := mem_sortByScoreDesc hrs
      obtain ⟨chunk, hc, hok⟩ :=
        mapM_ok_mem (hybridResult query queryEmbedding) (getAllChunks st) results hres r hrr
      obtain ⟨hcos, hkw, hscore, _⟩ := hybridResult_ok hok
      exact ⟨hscore, chunk, hc, hcos, hkw⟩

/-- Witness for C1 on the empty corpus, where `hybridSearch` returns
`.ok []`. -/
theorem hybridSearch_ranked_witness :
    List.Pairwise (fun a b => b.score ≤ a.score) ([] : List SearchResult) ∧
    ([] : List SearchResult).length ≤ 3 ∧
    ∀ r ∈ ([] : List SearchResult),
      r.score = 0.6 * r.vectorScore + 0.4 * r.keywordScore ∧
      ∃ chunk ∈ getAllChunks (Catalog.mk []),
        cosineSimilarity [] chunk.embedding = .ok r.vectorScore ∧
        r.keywordScore = calculateKeywordScore [] chunk.content :=
  hybridSearch_ranked [] [] 3 (Catalog.mk []) [] rfl

/-! ## C2: the keyword score -/

theorem kwFold_eq (textLower : Str) :
    ∀ (terms : List Str) (a : ℝ) (m : ℕ),
      terms.foldl (kwStep textLower) (a, m) =
        (a + keywordAcc textLower terms, m + keywordMatched textLower terms) := by
  intro terms
  induction terms with
  | nil => intro a m; simp [keywordAcc, keywordMatched]
  | cons tm rest ih =>
    intro a m
    rw [List.foldl_cons]
    by_cases hlen : tm.length < 3
    · have hk : kwStep textLower (a, m) tm = (a, m) := by
        unfold kwStep; rw [if_pos hlen]
      have hfilter : decide (3 ≤ tm.length) = false := by
        simp; omega
      rw [hk, ih]
      unfold keywordAcc keywordMatched
      rw [List.filter_cons, List.filter_cons]
      simp [hfilter]
    · have h3 : decide (3 ≤ tm.length) = true := by
        simp; omega
      by_cases htf : 0 < countOccs textLower tm
      · have hk : kwStep textLower (a, m) tm =
            (a + Real.log (1 + (countOccs textLower tm : ℝ)), m + 1) := by
          unfold kwStep
          rw [if_neg hlen, if_pos htf]
        have htfd : decide (0 < countOccs textLower tm) = true := by simpa using htf
        rw [hk, ih]
        unfold keywordAcc keywordMatched
        rw [List.filter_cons, List.filter_cons]
        simp only [h3, htfd, Bool.and_self, if_true, List.map_cons, List.sum_cons,
          List.length_cons, Prod.mk.injEq]
        constructor
        · ring
        · omega
      · have htf0 : countOccs textLower tm = 0 := by omega
        have hk : kwStep textLower (a, m) tm = (a, m) := by
          unfold kwStep
          rw [if_neg hlen, if_neg htf]
        have htfd : decide (0 < countOccs textLower tm) = false := by simpa using htf
        rw [hk, ih]
        unfold keywordAcc keywordMatched
        rw [List.filter_cons, List.filter_cons]
        simp [h3, htfd, htf0]

theorem keywordAcc_nonneg (textLower : Str) (terms : List Str) :
    0 ≤ keywordAcc textLower terms := by
  unfold keywordAcc
  apply List.sum_nonneg
  intro x hx
  obtain ⟨tm, _, rfl⟩ := List.mem_map.mp hx
  apply Real.log_nonneg
  have : (0 : ℝ) ≤ (countOccs textLower tm : ℝ) := by positivity
  linarith

theorem calculateKeywordScore_eq (query text : Str) :
    calculateKeywordScore query text =
      min 1 ((keywordAcc (lowerStr text) (codeQueryTerms query) /
          max 1 ((codeQueryTerms query).length : ℝ)) * 0.5 +
        (if 0 < (codeQueryTerms query).length then
            (keywordMatched (lowerStr text) (codeQueryTerms query) : ℝ) /
              ((codeQueryTerms query).length : ℝ)
          else 0) * 0.5) := by
  simp only [calculateKeywordScore]
  rw [kwFold_eq]
  simp

/-- C2 (amended): for queries whose matched terms — the whitespace-run
tokens of length at least 3, the only ones the source turns into
`new RegExp(term, 'gi')` — contain no regex metacharacter, so that each
pattern matches literally and the constructor cannot throw,
`calculateKeywordScore` follows the spec's formula shape but with the
code's own query tokenisation: the query is lowercased and split on
whitespace runs only — punctuation is not stripped and tokens of length
at most 2 are not dropped, so they still count in `numQueryTokens`, the
accumulator divisor and the coverage denominator, although only tokens
of length at least 3 are matched.  With that tokenisation the returned
value is `min(1, (acc / max(1, numQueryTokens)) · 0.5 + coverage · 0.5)`
and lies in `[0, 1]`.  (A term with a metacharacter is matched as a
regex by the source — `c.t` also counts `cut` — and an ill-formed one
makes it throw; those inputs are outside this theorem's scope.) -/
theorem calculateKeywordScore_closed_form (query text : Str)
    (_hsafe : ∀ tm ∈ codeQueryTerms query, 3 ≤ tm.length →
      ∀ c ∈ tm, isRegexMeta c = false) :
    calculateKeywordScore query text =
      min 1 ((keywordAcc (lowerStr text) (codeQueryTerms query) /
          max 1 ((codeQueryTerms query).length : ℝ)) * 0.5 +
        (if 0 < (codeQueryTerms query).length then
            (keywordMatched (lowerStr text) (codeQueryTerms query) : ℝ) /
              ((codeQueryTerms query).length : ℝ)
          else 0) * 0.5) ∧
    0 ≤ calculateKeywordScore query text ∧ calculateKeywordScore query text ≤ 1 := by
  refine ⟨calculateKeywordScore_eq query text, ?_, ?_⟩
  · rw [calculateKeywordScore_eq]
    apply le_min (by norm_num)
    have hacc := keywordAcc_nonneg (lowerStr text) (codeQueryTerms query)
    have hmax : (0 : ℝ) < max 1 ((codeQueryTerms query).length : ℝ) :=
      lt_of_lt_of_le one_pos (le_max_left _ _)
    have h1 : 0 ≤ keywordAcc (lowerStr text) (codeQueryTerms query) /
        max 1 ((codeQueryTerms query).length : ℝ) := div_nonneg hacc hmax.le
    have h2 : (0 : ℝ) ≤ (if 0 < (codeQueryTerms query).length then
        (keywordMatched (lowerStr text) (codeQueryTerms query) : ℝ) /
          ((codeQueryTerms query).length : ℝ)
      else 0) := by
      by_cases hq : 0 < (codeQueryTerms query).length
      · rw [if_pos hq]; positivity
      · rw [if_neg hq]
    nlinarith
  · rw [calculateKeywordScore_eq]
    exact min_le_left _ _

/-- Witness for the amended C2 on a metacharacter-free query. -/
theorem calculateKeywordScore_closed_form_witness :
    calculateKeywordScore (("the cat").toList) (("cat cat").toList) =
      min 1 ((keywordAcc (lowerStr (("cat cat").toList)) (codeQueryTerms (("the cat").toList)) /
          max 1 ((codeQueryTerms (("the cat").toList)).length : ℝ)) * 0.5 +
        (if 0 < (codeQueryTerms (("the cat").toList)).length then
            (keywordMatched (lowerStr (("cat cat").toList))
               (codeQueryTerms (("the cat").toList)) : ℝ) /
              ((codeQueryTerms (("the cat").toList)).length : ℝ)
          else 0) * 0.5) ∧
    0 ≤ calculateKeywordScore (("the cat").toList) (("cat cat").toList) ∧
    calculateKeywordScore (("the cat").toList) (("cat cat").toList) ≤ 1 :=
  calculateKeywordScore_closed_form (("the cat").toList) (("cat cat").toList) (by decide)

/-- Counterexample to C2 as stated: on query "a cat" and chunk text "cat"
the code's keyword score differs from the spec formula, because the code
also counts the 1-character token "a" in the `numQueryTokens`
denominators while the spec's BM25 tokenisation drops it. -/
theorem calculateKeywordScore_ne_spec :
    calculateKeywordScore (("a cat").toList) (("cat").toList) ≠
      specKeywordScore (("a cat").toList) (("cat").toList) := by
  have hq : codeQueryTerms (("a cat").toList) = [['a'], ['c', 'a', 't']] := by decide
  have htoks : bm25Tokenize (("a cat").toList) = [['c', 'a', 't']] := by decide
  have hocc : countOccs (lowerStr ['c', 'a', 't']) ['c', 'a', 't'] = 1 := by decide
  have hflt : List.filter (fun tok => decide (0 < countOccs (lowerStr ['c', 'a', 't']) tok))
      [['c', 'a', 't']] = [['c', 'a', 't']] := by decide
  have hacc : keywordAcc (lowerStr (("cat").toList)) [['a'], ['c', 'a', 't']] =
      Real.log 2 := by
    unfold keywordAcc
    rw [show (List.filter (fun tm => decide (3 ≤ tm.length)) [['a'], ['c', 'a', 't']]) =
      [['c', 'a', 't']] from by decide]
    simp [hocc]
    norm_num
  have hmat : keywordMatched (lowerStr (("cat").toList)) [['a'], ['c', 'a', 't']] = 1 := by
    decide
  have hL : calculateKeywordScore (("a cat").toList) (("cat").toList) =
      min 1 (Real.log 2 / 2 * 0.5 + 1 / 2 * 0.5) := by
    rw [calculateKeywordScore_eq, hq, hacc, hmat]
    norm_num
  have hR : specKeywordScore (("a cat").toList) (("cat").toList) =
      min 1 (Real.log 2 * 0.5 + 1 * 0.5) := by
    simp only [specKeywordScore]
    rw [htoks]
    simp [hocc, hflt]
    norm_num
  rw [hL, hR]
  have h0 : 0 < Real.log 2 := Real.log_pos (by norm_num)
  have h1 : Real.log 2 < 1 := lt_trans Real.log_two_lt_d9 (by norm_num)
  rw [min_eq_right (by nlinarith), min_eq_right (by nlinarith)]
  intro heq
  nlinarith

/-! ## C8: oversized uploads are rejected without catalog mutation -/

theorem replicate_a_no_ws (n : ℕ) : ∀ c ∈ List.replicate n 'a', isWsChar c = false := by
  intro c hc
  rw [(List.mem_replicate.mp hc).2]
  decide

theorem normalizeText_replicate_a (n : ℕ) :
    normalizeText (List.replicate n 'a') = List.replicate n 'a' := by
  unfold normalizeText
  rw [collapseWs_no_ws _ (replicate_a_no_ws n), trimStr_no_ws (replicate_a_no_ws n)]

theorem beq_replicate_a_pair {m : ℕ} {p1 p2 : Char} (h : p1 ≠ 'a') :
    (List.replicate m 'a' == [p1, p2]) = false := by
  rw [beq_eq_false_iff_ne]
  intro he
  cases m with
  | zero => simp at he
  | succ m =>
    rw [List.replicate_succ] at he
    injection he with h1 h2
    exact h h1.symm

theorem matchesAt_replicate_a {k i : ℕ} {p1 p2 : Char} (h : p1 ≠ 'a') :
    matchesAt (List.replicate k 'a') [p1, p2] i = false := by
  unfold matchesAt
  rw [List.drop_replicate, List.take_replicate]
  exact beq_replicate_a_pair h

theorem lastIndexOfStr_replicate_a {k : ℕ} {p1 p2 : Char} (h : p1 ≠ 'a') :
    lastIndexOfStr (List.replicate k 'a') [p1, p2] = -1 := by
  unfold lastIndexOfStr
  rw [List.filter_eq_nil_iff.mpr (fun i _ => by
    rw [matchesAt_replicate_a h]
    exact Bool.false_ne_true)]
  rfl

theorem chunkEnd_replicate_a {n start : ℕ} (h : start + 1000 < n) :
    chunkEnd (List.replicate n 'a') start 1000 = start + 1000 := by
  have hss : max start (start + 1000 - 200) = start + 800 := by omega
  have hsub : substringStr (List.replicate n 'a') (start + 800) (start + 1000) =
      List.replicate 200 'a' := by
    unfold substringStr
    rw [List.drop_replicate, List.take_replicate,
      show (start + 1000 - (start + 800)) ⊓ (n - (start + 800)) = 200 from by omega]
  simp only [chunkEnd, List.length_replicate, hss, hsub]
  rw [if_pos h]
  rw [lastIndexOfStr_replicate_a (by decide), lastIndexOfStr_replicate_a (by decide),
    lastIndexOfStr_replicate_a (by decide)]
  norm_num

theorem chunkLoopFuel_replicate_step {n start fuel : ℕ} (h : start + 1000 < n) :
    chunkLoopFuel (fuel + 1) (List.replicate n 'a') start 1000 200 =
      match chunkLoopFuel fuel (List.replicate n 'a') (start + 800) 1000 200 with
      | none => none
      | some l => some (List.replicate 1000 'a' :: l) := by
  have hlt : start < (List.replicate n 'a').length := by
    rw [List.length_replicate]; omega
  simp only [chunkLoopFuel]
  rw [if_pos hlt]
  rw [chunkEnd_replicate_a h]
  have hsub : substringStr (List.replicate n 'a') start (start + 1000) =
      List.replicate 1000 'a' := by
    unfold substringStr
    rw [List.drop_replicate, List.take_replicate,
      show (start + 1000 - start) ⊓ (n - start) = 1000 from by omega]
  rw [hsub]
  rw [trimStr_no_ws (replicate_a_no_ws 1000)]
  have hns : ¬ (start + 1000 - 200 ≤ start) := by omega
  rw [if_neg hns]
  have hstart' : start + 1000 - 200 = start + 800 := by omega
  rw [hstart']
  cases chunkLoopFuel fuel (List.replicate n 'a') (start + 800) 1000 200 with
  | none => rfl
  | some l =>
    simp only [Option.some.injEq]
    rw [if_pos (by rw [List.length_replicate]; omega)]

theorem chunkLoopFuel_replicate_count {n : ℕ} :
    ∀ (k fuel start : ℕ) (l : List Str),
      chunkLoopFuel fuel (List.replicate n 'a') start 1000 200 = some l →
      start + 800 * k + 201 ≤ n → k ≤ l.length := by
  intro k
  induction k with
  | zero => intro fuel start l _ _; omega
  | succ k ih =>
    intro fuel start l h hle
    have hlt : start + 1000 < n := by omega
    cases fuel with
    | zero =>
      exfalso
      have hsl : start < (List.replicate n 'a').length := by
        rw [List.length_replicate]; omega
      simp [chunkLoopFuel, hsl] at h
      exact absurd h.1 (by omega)
    | succ fuel =>
      rw [chunkLoopFuel_replicate_step hlt] at h
      cases hrec : chunkLoopFuel fuel (List.replicate n 'a') (start + 800) 1000 200 with
      | none => rw [hrec] at h; simp at h
      | some l' =>
        rw [hrec] at h
        simp only [Option.some.injEq] at h
        have hk := ih fuel (start + 800) l' hrec (by omega)
        rw [← h]
        simp only [List.length_cons]
        omega

theorem chunkText_replicate_big : 1000 < (chunkText (List.replicate 801001 'a')).length := by
  have htrim : trimStr (List.replicate 801001 'a') = List.replicate 801001 'a' :=
    trimStr_no_ws (replicate_a_no_ws _)
  have hlen : (List.replicate 801001 'a').length = 801001 := List.length_replicate _ _
  have hsome := chunkLoopFuel_isSome 801001 (List.replicate 801001 'a') 0 1000 200
    (by omega) (by rw [hlen])
  obtain ⟨l, hl⟩ := Option.isSome_iff_exists.mp hsome
  have hcount := chunkLoopFuel_replicate_count 1001 801001 0 l hl (by omega)
  unfold chunkText chunkTextWith
  rw [htrim, hlen]
  rw [if_neg (by omega)]
  simp only [normalizeText_replicate_a, hlen]
  rw [if_neg (by omega)]
  rw [hl]
  simp only [Option.getD_some]
  omega

/-- C8: when the parsed text would chunk into more than 1000 chunks, the
upload is rejected with a 400 validation error (at the chunk-count guard,
or already at the size guard), the catalog is left exactly as it was, and
no persistence call is made. -/
theorem uploadPost_chunk_overflow_rejected
    (embedBatch : List Str → List (List ℝ)) (newId : Str) (now : ℕ)
    (fileName fileTypeLabel : Str) (fileSize : ℕ) (content : Str) (st : Catalog)
    (h : 1000 < (chunkText content).length) :
    (∃ msg, (uploadPost embedBatch newId now fileName fileTypeLabel fileSize content st).1 =
      .error 400 msg) ∧
    (uploadPost embedBatch newId now fileName fileTypeLabel fileSize content st).2.1 = st ∧
    (uploadPost embedBatch newId now fileName fileTypeLabel fileSize content st).2.2 = [] := by
  unfold uploadPost
  by_cases h1 : 10 * 1024 * 1024 < fileSize
  · rw [if_pos h1]
    exact ⟨⟨_, rfl⟩, rfl, rfl⟩
  · rw [if_neg h1]
    by_cases h2 : (trimStr content).length = 0
    · rw [if_pos h2]
      exact ⟨⟨_, rfl⟩, rfl, rfl⟩
    · rw [if_neg h2]
      simp only []
      rw [if_pos h]
      exact ⟨⟨_, rfl⟩, rfl, rfl⟩

/-- Witness for C8: the 801001-character single-run text chunks into more
than 1000 chunks and is rejected without touching the empty catalog. -/
theorem uploadPost_chunk_overflow_witness :
    (∃ msg, (uploadPost (fun _ => []) [] 0 [] [] 0 (List.replicate 801001 'a')
        (Catalog.mk [])).1 = .error 400 msg) ∧
    (uploadPost (fun _ => []) [] 0 [] [] 0 (List.replicate 801001 'a')
        (Catalog.mk [])).2.1 = Catalog.mk [] ∧
    (uploadPost (fun _ => []) [] 0 [] [] 0 (List.replicate 801001 'a')
        (Catalog.mk [])).2.2 = [] :=
  uploadPost_chunk_overflow_rejected (fun _ => []) [] 0 [] [] 0
    (List.replicate 801001 'a') (Catalog.mk []) chunkText_replicate_big
